import Mathlib

/-!
Shallow embedding of `asm_pyparsing.py`, a pyparsing-based assembler for the
DCPU-16. The grammar layer (pyparsing combinators) is represented by the
abstract syntax it produces: a list of `Line` records, each with an optional
label and an optional statement, exactly the shape `codegen` consumes.
`DAT` operands are already expanded to words by the parse actions
(`wordize_string` / `parse_data`), which we model directly.

Python exceptions escaping `codegen` (assertion failures, unbound locals,
KeyError on an undefined label, struct.error on an out-of-range word) are
modelled with `Except AsmErr`; in every such case the Python process aborts
and produces no output bytes.
-/

/-- The registers the grammar recognises and the `IDENTIFIERS` dict encodes.
The grammar also accepts a register `O`, but `O` has no entry in
`IDENTIFIERS` (using it raises `KeyError`); it is not modelled since no
claim concerns it. -/
inductive Reg
  | A | B | C | X | Y | Z | I | J | SP | PC
deriving DecidableEq

/-- The three stack-operation keywords. -/
inductive StackOp
  | POP | PEEK | PUSH
deriving DecidableEq

/-- The `IDENTIFIERS` dict of the source, restricted to its register keys. -/
def IDENTIFIERS : Reg → Nat
  | .A => 0x0
  | .B => 0x1
  | .C => 0x2
  | .X => 0x3
  | .Y => 0x4
  | .Z => 0x5
  | .I => 0x6
  | .J => 0x7
  | .SP => 0x1B
  | .PC => 0x1C

/-- The `IDENTIFIERS` dict of the source, restricted to its stack-op keys. -/
def IDENTIFIERS_stack : StackOp → Nat
  | .POP => 0x18
  | .PEEK => 0x19
  | .PUSH => 0x1A

/-- The Python membership test `register in "ABCXYZIJ"` (a substring check on
the canonical upper-case register name): true exactly for the eight named
registers, false for `SP` and `PC`. -/
def Reg.inNamed : Reg → Bool
  | .SP => false
  | .PC => false
  | _ => true

/-- The 15 basic mnemonics of the `OPCODES` dict (JSR and DAT are handled
separately in `codegen`). -/
inductive Opcode
  | SET | ADD | SUB | MUL | DIV | MOD | SHL | SHR
  | AND | BOR | XOR | IFE | IFN | IFG | IFB
deriving DecidableEq

/-- The `OPCODES` dict of the source. -/
def OPCODES : Opcode → Nat
  | .SET => 0x1
  | .ADD => 0x2
  | .SUB => 0x3
  | .MUL => 0x4
  | .DIV => 0x5
  | .MOD => 0x6
  | .SHL => 0x7
  | .SHR => 0x8
  | .AND => 0x9
  | .BOR => 0xA
  | .XOR => 0xB
  | .IFE => 0xC
  | .IFN => 0xD
  | .IFG => 0xE
  | .IFB => 0xF

/-- A literal as produced by the grammar rule `literal`: either a numeric
literal (hex or decimal, already converted to an integer by the parse
action) or an identifier, i.e. a symbolic label reference. -/
inductive Lit
  | num (n : Nat)
  | sym (s : String)
deriving DecidableEq

/-- A word of the growing `program` list: Python stores either an `int`
(resolved) or a `str` (an unresolved label placeholder). -/
inductive PWord
  | num (n : Nat)
  | sym (s : String)
deriving DecidableEq

/-- A literal, as it is stored when appended to the program list. -/
def Lit.toPWord : Lit → PWord
  | .num n => .num n
  | .sym s => .sym s

/-- A `basic_operand` of the grammar: a register, a stack op, or a literal. -/
inductive Basic
  | reg (r : Reg)
  | stk (op : StackOp)
  | lit (l : Lit)
deriving DecidableEq

/-- An `operand` of the grammar: either a basic operand, an indirection
`[basic]` / `(basic)`, or an indirect offset expression
`[literal + register]`. -/
inductive Operand
  | basic (b : Basic)
  | indirect (b : Basic)
  | indirectOffset (l : Lit) (r : Reg)
deriving DecidableEq

/-- The failure modes through which the Python `codegen` run aborts. -/
inductive AsmErr
  | assertFail
  | unboundLocal
  | typeErr
  | keyErr (s : String)
  | structErr
deriving DecidableEq

/-- The source's `process_operand`: maps an operand to its 6-bit field code
and its optional extra word.

  * basic register / stack op: code from the `IDENTIFIERS` dict, no extra;
  * basic numeric literal below `0x20`: inlined as `0x20 | l`, no extra;
  * other basic literal (numeric `≥ 0x20` or symbolic): `0x1F` plus the
    literal as extra word (`assert not l == ""` rejects an empty symbol);
  * indirect register: `assert register in "ABCXYZIJ"`, then
    `0x8 + IDENTIFIERS[register]`, no extra;
  * indirect stack op: the Python code falls through to `return None, None`
    and `codegen` then dies with a `TypeError` at `None << 10`; we surface
    that abort as `typeErr` already here;
  * indirect literal: `0x1E` plus the literal as extra word;
  * `[literal + register]`: `assert register in "ABCXYZIJ"`, then
    `0x10 | IDENTIFIERS[register]` plus the literal as extra word. -/
def process_operand : Operand → Except AsmErr (Nat × Option PWord)
  | .basic (.reg r) => .ok (IDENTIFIERS r, none)
  | .basic (.stk op) => .ok (IDENTIFIERS_stack op, none)
  | .basic (.lit (.num n)) =>
      if n < 0x20 then .ok (0x20 ||| n, none) else .ok (0x1F, some (.num n))
  | .basic (.lit (.sym s)) =>
      if s = "" then .error .assertFail else .ok (0x1F, some (.sym s))
  | .indirect (.reg r) =>
      if r.inNamed then .ok (0x8 + IDENTIFIERS r, none) else .error .assertFail
  | .indirect (.stk _) => .error .typeErr
  | .indirect (.lit l) => .ok (0x1E, some l.toPWord)
  | .indirectOffset l r =>
      if r.inNamed then .ok (0x10 ||| IDENTIFIERS r, some l.toPWord)
      else .error .assertFail

/-- The source's `make_words`: pack a byte (character-code) list two per
word, high byte first, `izip_longest` padding the final odd byte's partner
with 0. -/
def make_words : List Nat → List Nat
  | [] => []
  | [a] => [(a <<< 8) ||| 0]
  | a :: b :: rest => ((a <<< 8) ||| b) :: make_words rest

/-- The source's `wordize_string` parse action: a quoted string becomes the
packed words of its character codes. -/
def wordize_string (s : String) : List Nat :=
  make_words (s.data.map Char.toNat)

/-- One entry of a `DAT` list as the grammar's `datum` rule sees it: a
quoted string or a numeric literal. -/
inductive Datum
  | str (s : String)
  | num (n : Nat)
deriving DecidableEq

/-- The source's `parse_data` parse action: each datum is parsed by `datum`
(strings are wordized, numerics stay single words) and the results are
concatenated in order. -/
def parse_data (ds : List Datum) : List Nat :=
  ds.flatMap fun d =>
    match d with
    | .str s => wordize_string s
    | .num n => [n]

/-- A parsed statement: a `DAT` directive (its data already expanded to
words by the parse actions), a unary `JSR`, or a two-operand instruction. -/
inductive Stmt
  | dat (ds : List Datum)
  | jsr (first : Operand)
  | binop (op : Opcode) (first second : Operand)
deriving DecidableEq

/-- One parsed source line: optional label definition, optional statement
(comments carry no semantics and are dropped by the grammar). -/
structure Line where
  label : Option String
  stmt : Option Stmt
deriving DecidableEq

/-- The `labels` dict, most recent assignment first; `setLabel` is dict
assignment (later bindings shadow earlier ones on lookup). -/
abbrev Labels := List (String × Nat)

/-- Dict assignment `labels[k] = v`. -/
def setLabel (tbl : Labels) (k : String) (v : Nat) : Labels :=
  (k, v) :: tbl

/-- Dict lookup `labels[k]`, `none` when the key is absent. -/
def lookupLabel (tbl : Labels) (k : String) : Option Nat :=
  tbl.lookup k

/-- The instruction word built at line 197 of the source:
`(b << 10) + (a << 4) + o`. -/
def instrWord (b a o : Nat) : Nat :=
  (b <<< 10) + (a <<< 4) + o

/-- `if w is not None: program.append(w)`. -/
def appendExtra (prog : List PWord) : Option PWord → List PWord
  | some w => prog ++ [w]
  | none => prog

/-- The mutable state of the `codegen` loop: the `labels` dict, the
`program` word list, and the Python local variable `x` (the first
operand's extra word). `x` is a plain function local: `xVar = none` means
it has never been assigned (reading it raises `UnboundLocalError`), while
`xVar = some v` means it currently holds `v` — crucially, the `JSR` branch
of the loop does not assign `x`, so a value left by an earlier iteration
persists into a `JSR` line. -/
structure CGState where
  labels : Labels
  program : List PWord
  xVar : Option (Option PWord)
deriving DecidableEq

/-- The state at loop entry: empty dict, empty program, `x` unassigned. -/
def initState : CGState :=
  ⟨[], [], none⟩

/-- The label-recording half of one loop iteration: `if line.label:
labels[line.label] = len(program)`, executed before the statement appends
any words. -/
def recordLabel (st : CGState) : Option String → Labels
  | some lbl => setLabel st.labels lbl st.program.length
  | none => st.labels

/-- The statement-dispatch half of one loop iteration. It reads only the
program list and the local `x`, and yields their new values. -/
def stepStmt (st : CGState) : Option Stmt → Except AsmErr (List PWord × Option (Option PWord))
  | none => .ok (st.program, st.xVar)
  | some (.dat ds) =>
      .ok (st.program ++ (parse_data ds).map PWord.num, st.xVar)
  | some (.jsr f) =>
      match process_operand f with
      | .error e => .error e
      | .ok (b, y) =>
          match st.xVar with
          | none => .error .unboundLocal
          | some x =>
              .ok (appendExtra (appendExtra
                     (st.program ++ [.num (instrWord b 0x01 0x00)]) x) y,
                   st.xVar)
  | some (.binop m f s) =>
      match process_operand f with
      | .error e => .error e
      | .ok (a, x) =>
          match process_operand s with
          | .error e => .error e
          | .ok (b, y) =>
              .ok (appendExtra (appendExtra
                     (st.program ++ [.num (instrWord b a (OPCODES m))]) x) y,
                   some x)

/-- One iteration of the `for line in parsed` loop of `codegen`:
record the label (bound to the current program length, before the
statement appends anything), then dispatch on the statement. -/
def stepLine (st : CGState) (ln : Line) : Except AsmErr CGState :=
  match stepStmt st ln.stmt with
  | .error e => .error e
  | .ok (prog, xv) => .ok ⟨recordLabel st ln.label, prog, xv⟩

/-- The whole generation loop. -/
def stepLines (st : CGState) : List Line → Except AsmErr CGState
  | [] => .ok st
  | ln :: rest =>
      match stepLine st ln with
      | .error e => .error e
      | .ok st2 => stepLines st2 rest

/-- The label table and program-word list after the generation loop. -/
def codegenWords (lines : List Line) : Except AsmErr (Labels × List PWord) :=
  match stepLines initState lines with
  | .error e => .error e
  | .ok st => .ok (st.labels, st.program)

/-- Resolve one program word: numbers pass through, a symbolic reference is
looked up in the label dict (`labels[c]`, whose `KeyError` aborts). -/
def resolveWord (tbl : Labels) : PWord → Except AsmErr Nat
  | .num n => .ok n
  | .sym s =>
      match lookupLabel tbl s with
      | some a => .ok a
      | none => .error (.keyErr s)

/-- The label-substitution scan of `codegen` (`# Substitute labels`):
replace every symbolic word by its address, aborting at the first
undefined reference. -/
def substLabels (tbl : Labels) : List PWord → Except AsmErr (List Nat)
  | [] => .ok []
  | w :: rest =>
      match resolveWord tbl w with
      | .error e => .error e
      | .ok n =>
          match substLabels tbl rest with
          | .error e => .error e
          | .ok ns => .ok (n :: ns)

/-- The fully resolved program-word list, just before serialization. -/
def resolvedProgram (lines : List Line) : Except AsmErr (List Nat) :=
  match codegenWords lines with
  | .error e => .error e
  | .ok (tbl, prog) => substLabels tbl prog

/-- `struct.pack(">H", w)`: two bytes, most significant first; a value not
representable in 16 bits raises `struct.error`. -/
def packWord (w : Nat) : Except AsmErr (List Nat) :=
  if w < 0x10000 then .ok [w / 0x100, w % 0x100] else .error .structErr

/-- The serialization loop of `codegen` (`# Turn words into bytes`). -/
def serialize : List Nat → Except AsmErr (List Nat)
  | [] => .ok []
  | w :: rest =>
      match packWord w with
      | .error e => .error e
      | .ok bs =>
          match serialize rest with
          | .error e => .error e
          | .ok rs => .ok (bs ++ rs)

/-- The source's `codegen` on an already-parsed line list: generation,
label substitution, serialization. -/
def codegen (lines : List Line) : Except AsmErr (List Nat) :=
  match resolvedProgram lines with
  | .error e => .error e
  | .ok ws => serialize ws

/-! ### Shared lemmas -/

/-- Adding into disjoint high bits is bitwise or. -/
theorem shiftLeft_add_or (a y k : Nat) (hy : y < 2 ^ k) :
    a <<< k + y = (a <<< k) ||| y := by
  have hrw : a <<< k + y = 2 ^ k * a + y := by
    rw [Nat.shiftLeft_eq, Nat.mul_comm]
  apply Nat.eq_of_testBit_eq
  intro i
  rw [hrw, Nat.testBit_mul_pow_two_add a hy i, Nat.testBit_or, Nat.testBit_shiftLeft]
  by_cases h : i < k
  · simp [h, Nat.not_le.mpr h]
  · have hge : k ≤ i := Nat.le_of_not_lt h
    have hyb : y.testBit i = false :=
      Nat.testBit_lt_two_pow (lt_of_lt_of_le hy (Nat.pow_le_pow_right (by norm_num) hge))
    simp [h, hge, hyb]

/-- The instruction word of line 197, written with `+` in the source, equals
the or of its three disjoint bit fields whenever the a field fits in 6 bits
and the opcode in 4. -/
theorem instrWord_eq_or (b a o : Nat) (ha : a ≤ 0x3F) (ho : o < 16) :
    instrWord b a o = (b <<< 10) ||| (a <<< 4) ||| o := by
  have ho4 : o < 2 ^ 4 := ho
  have h1 : a <<< 4 + o = (a <<< 4) ||| o := shiftLeft_add_or a o 4 ho4
  have ha16 : a <<< 4 = 16 * a := by rw [Nat.shiftLeft_eq]; ring
  have h2 : (a <<< 4) ||| o < 2 ^ 10 := by
    rw [← h1]; omega
  calc instrWord b a o
      = b <<< 10 + (a <<< 4 + o) := by rw [instrWord, Nat.add_assoc]
    _ = b <<< 10 + ((a <<< 4) ||| o) := by rw [h1]
    _ = (b <<< 10) ||| ((a <<< 4) ||| o) := shiftLeft_add_or b _ 10 h2
    _ = (b <<< 10) ||| (a <<< 4) ||| o := (Nat.lor_assoc _ _ _).symm

/-- Every field code `process_operand` can return fits in 6 bits. -/
theorem process_operand_code_le : ∀ (op : Operand) (c : Nat) (e : Option PWord),
    process_operand op = .ok (c, e) → c ≤ 0x3F
  | .basic (.reg r), c, e, h => by
      cases r <;> simp [process_operand, IDENTIFIERS] at h <;> omega
  | .basic (.stk op), c, e, h => by
      cases op <;> simp [process_operand, IDENTIFIERS_stack] at h <;> omega
  | .basic (.lit (.num n)), c, e, h => by
      by_cases hn : n < 0x20
      · simp [process_operand, hn] at h
        have h1 : (0x20 : Nat) < 2 ^ 6 := by norm_num
        have h2 : n < 2 ^ 6 := by omega
        have h3 := Nat.or_lt_two_pow h1 h2
        norm_num at h3
        omega
      · simp [process_operand, hn] at h
        omega
  | .basic (.lit (.sym s)), c, e, h => by
      by_cases hs : s = "" <;> simp [process_operand, hs] at h
      omega
  | .indirect (.reg r), c, e, h => by
      cases r <;> simp [process_operand, Reg.inNamed, IDENTIFIERS] at h <;> omega
  | .indirect (.stk op), c, e, h => by
      simp [process_operand] at h
  | .indirect (.lit l), c, e, h => by
      simp [process_operand] at h
      omega
  | .indirectOffset l r, c, e, h => by
      cases r <;> simp [process_operand, Reg.inNamed, IDENTIFIERS] at h <;>
        obtain ⟨h1, h2⟩ := h <;> subst h1 <;> decide

/-- Appending an optional extra word is appending its `toList`. -/
theorem appendExtra_eq_toList (prog : List PWord) (o : Option PWord) :
    appendExtra prog o = prog ++ o.toList := by
  cases o <;> simp [appendExtra]

/-- The generation loop distributes over concatenation of line lists. -/
theorem stepLines_append (st : CGState) (xs ys : List Line) :
    stepLines st (xs ++ ys) =
      match stepLines st xs with
      | .error e => .error e
      | .ok st2 => stepLines st2 ys := by
  induction xs generalizing st with
  | nil => simp [stepLines]
  | cons ln rest ih =>
      simp only [List.cons_append, stepLines]
      cases stepLine st ln with
      | error e => simp
      | ok st2 => simp [ih]

/-- A successful line step records exactly the line's label (if any) at the
pre-statement program length, on top of the previous table. -/
theorem stepLine_ok_labels (st : CGState) (ln : Line) (st2 : CGState)
    (h : stepLine st ln = .ok st2) :
    st2.labels = recordLabel st ln.label := by
  unfold stepLine at h
  cases hs : stepStmt st ln.stmt with
  | error e => rw [hs] at h; exact absurd h (by simp)
  | ok p => rw [hs] at h; cases h; rfl

/-- Looking up a key other than the one just set is unchanged. -/
theorem lookupLabel_setLabel_ne (tbl : Labels) (k lbl : String) (v : Nat)
    (hne : lbl ≠ k) : lookupLabel (setLabel tbl k v) lbl = lookupLabel tbl lbl := by
  simp [lookupLabel, setLabel, List.lookup, beq_eq_false_iff_ne.mpr hne]

/-- Looking up the key just set yields the new value. -/
theorem lookupLabel_setLabel_eq (tbl : Labels) (k : String) (v : Nat) :
    lookupLabel (setLabel tbl k v) k = some v := by
  simp [lookupLabel, setLabel, List.lookup]

/-- Stepping lines none of which defines `lbl` leaves its lookup unchanged. -/
theorem stepLines_lookup_preserved (lines : List Line) (st st2 : CGState)
    (lbl : String) (h : stepLines st lines = .ok st2)
    (hno : ∀ ln ∈ lines, ln.label ≠ some lbl) :
    lookupLabel st2.labels lbl = lookupLabel st.labels lbl := by
  induction lines generalizing st with
  | nil => simp [stepLines] at h; cases h; rfl
  | cons ln rest ih =>
      simp only [stepLines] at h
      cases hs : stepLine st ln with
      | error e => rw [hs] at h; exact absurd h (by simp)
      | ok stMid =>
          rw [hs] at h
          have hrest := ih stMid h (fun l hl => hno l (List.mem_cons_of_mem _ hl))
          rw [hrest, stepLine_ok_labels st ln stMid hs]
          cases hlab : ln.label with
          | none => simp [recordLabel]
          | some k =>
              have : k ≠ lbl := fun hk => hno ln (List.mem_cons_self _ _) (by rw [hlab, hk])
              simp [recordLabel, lookupLabel_setLabel_ne st.labels k lbl _ (Ne.symm this)]

/-- A successful substitution resolves position by position. -/
theorem substLabels_get (tbl : Labels) (prog : List PWord) (ws : List Nat)
    (h : substLabels tbl prog = .ok ws) (j : Nat) (w : PWord)
    (hw : prog[j]? = some w) :
    ∃ n, resolveWord tbl w = .ok n ∧ ws[j]? = some n := by
  induction prog generalizing ws j with
  | nil => simp at hw
  | cons p rest ih =>
      cases hr : resolveWord tbl p with
      | error e => simp [substLabels, hr] at h
      | ok n =>
          cases hrest : substLabels tbl rest with
          | error e => simp [substLabels, hr, hrest] at h
          | ok ns =>
              simp only [substLabels, hr, hrest] at h
              cases h
              cases j with
              | zero =>
                  simp only [List.getElem?_cons_zero, Option.some.injEq] at hw
                  subst hw
                  exact ⟨n, hr, by simp⟩
              | succ j2 =>
                  simp only [List.getElem?_cons_succ] at hw
                  obtain ⟨m, hm, hj⟩ := ih ns hrest j2 hw
                  exact ⟨m, hm, by simpa using hj⟩

/-- A symbolic word with no table entry makes the substitution scan abort
with a key error (for some unresolved symbol of the program). -/
theorem substLabels_error_of_mem (tbl : Labels) (prog : List PWord) (s : String)
    (hmem : PWord.sym s ∈ prog) (hund : lookupLabel tbl s = none) :
    ∃ t, lookupLabel tbl t = none ∧ substLabels tbl prog = .error (.keyErr t) := by
  induction prog with
  | nil => simp at hmem
  | cons p rest ih =>
      rcases List.mem_cons.mp hmem with hp | hp
      · refine ⟨s, hund, ?_⟩
        have hr : resolveWord tbl p = .error (.keyErr s) := by
          rw [← hp]; simp [resolveWord, hund]
        simp [substLabels, hr]
      · cases hr : resolveWord tbl p with
        | error e =>
            cases p with
            | num n => simp [resolveWord] at hr
            | sym s2 =>
                cases hl : lookupLabel tbl s2 with
                | none =>
                    refine ⟨s2, hl, ?_⟩
                    have hr2 : resolveWord tbl (.sym s2) = .error (.keyErr s2) := by
                      simp [resolveWord, hl]
                    simp [substLabels, hr2]
                | some a => simp [resolveWord, hl] at hr
        | ok n =>
            obtain ⟨t, ht, hrest⟩ := ih hp
            exact ⟨t, ht, by simp [substLabels, hr, hrest]⟩

/-! ### Claims -/

/-- C1: the claim says a `JSR` line emits exactly one instruction word with
opcode `0x00`, a-field `0x01` and the operand's code in the b position,
followed only by that operand's extra word, regardless of what precedes it.
The code violates this: the `JSR` branch of the loop never assigns the local
`x`, so (first conjunct) a stale extra word left by a preceding line's first
operand — here the `0x30` of `SET 0x30, A` — is appended again between the
`JSR` instruction word `0x7C10` and its operand's extra word, and (second
conjunct) a program whose first instruction is a `JSR` aborts with an
unbound-local error instead of assembling. -/
theorem c1_jsr_stale_extra_word :
    codegenWords
      [⟨none, some (.binop .SET (.basic (.lit (.num 0x30))) (.basic (.reg .A)))⟩,
       ⟨none, some (.jsr (.basic (.lit (.sym "foo"))))⟩,
       ⟨some "foo", some (.binop .SET (.basic (.reg .A)) (.basic (.reg .B)))⟩] =
      .ok ([("foo", 5)],
           [.num 0x01F1, .num 0x30, .num 0x7C10, .num 0x30, .sym "foo", .num 0x0401]) ∧
    stepLines initState [⟨none, some (.jsr (.basic (.lit (.num 0x2))))⟩] =
      .error .unboundLocal :=
  ⟨rfl, rfl⟩

/-- C3: a numeric literal operand below `0x20` is classified as field code
`0x20 | L` with no extra word (so `0x1F` gives `0x3F`), while a numeric
literal `≥ 0x20` or a (nonempty) symbolic literal is classified as `0x1F`
with the literal itself as the extra word (so `0x20` gives `0x1F` plus
extra word `0x20`). -/
theorem c3_literal_classification :
    (∀ n : Nat, n < 0x20 →
        process_operand (.basic (.lit (.num n))) = .ok (0x20 ||| n, none)) ∧
    (∀ n : Nat, 0x20 ≤ n →
        process_operand (.basic (.lit (.num n))) = .ok (0x1F, some (.num n))) ∧
    (∀ s : String, s ≠ "" →
        process_operand (.basic (.lit (.sym s))) = .ok (0x1F, some (.sym s))) ∧
    process_operand (.basic (.lit (.num 0x1F))) = .ok (0x3F, none) ∧
    process_operand (.basic (.lit (.num 0x20))) = .ok (0x1F, some (.num 0x20)) := by
  refine ⟨?_, ?_, ?_, rfl, rfl⟩
  · intro n hn; simp [process_operand, hn]
  · intro n hn; simp [process_operand, Nat.not_lt.mpr hn]
  · intro s hs; simp [process_operand, hs]

/-- Witness for C3 at the literals 3, `0x21` and the symbol `"loop"`. -/
theorem c3_literal_classification_witness :
    process_operand (.basic (.lit (.num 3))) = .ok (0x20 ||| 3, none) ∧
    process_operand (.basic (.lit (.num 0x21))) = .ok (0x1F, some (.num 0x21)) ∧
    process_operand (.basic (.lit (.sym "loop"))) = .ok (0x1F, some (.sym "loop")) :=
  ⟨c3_literal_classification.1 3 (by decide),
   c3_literal_classification.2.1 0x21 (by decide),
   c3_literal_classification.2.2.1 "loop" (by decide)⟩

/-- C8: for every opcode `o < 16` and field codes `a, b ≤ 0x3F`, decoding
the encoded instruction word `W = (b << 10) + (a << 4) + o` by
`(W >> 10) & 0x3F`, `(W >> 4) & 0x3F` and `W & 0xF` recovers exactly
`b`, `a` and `o`. -/
theorem c8_field_roundtrip (b a o : Nat) (hb : b ≤ 0x3F) (ha : a ≤ 0x3F)
    (ho : o < 16) :
    (instrWord b a o >>> 10) &&& 0x3F = b ∧
    (instrWord b a o >>> 4) &&& 0x3F = a ∧
    instrWord b a o &&& 0xF = o := by
  have h1 : (0x3F : Nat) = 2 ^ 6 - 1 := by norm_num
  have h2 : (0xF : Nat) = 2 ^ 4 - 1 := by norm_num
  unfold instrWord
  rw [h1, h2, Nat.and_pow_two_sub_one_eq_mod, Nat.and_pow_two_sub_one_eq_mod,
      Nat.and_pow_two_sub_one_eq_mod]
  simp only [Nat.shiftLeft_eq, Nat.shiftRight_eq_div_pow]
  norm_num
  omega

/-- Witness for C8 at `b = 0x1F`, `a = 0x07`, `o = 0x1`. -/
theorem c8_field_roundtrip_witness :
    (instrWord 0x1F 0x07 0x1 >>> 10) &&& 0x3F = 0x1F ∧
    (instrWord 0x1F 0x07 0x1 >>> 4) &&& 0x3F = 0x07 ∧
    instrWord 0x1F 0x07 0x1 &&& 0xF = 0x1 :=
  c8_field_roundtrip 0x1F 0x07 0x1 (by decide) (by decide) (by decide)

/-- Words that fit in 16 bits all serialize, to two big-endian bytes each. -/
theorem serialize_ok_of_lt : ∀ (ws : List Nat), (∀ w ∈ ws, w < 0x10000) →
    serialize ws = .ok (ws.flatMap fun w => [w / 0x100, w % 0x100])
  | [], _ => rfl
  | w :: rest, h => by
      have hw : w < 0x10000 := h w (List.mem_cons_self _ _)
      have hrest := serialize_ok_of_lt rest (fun v hv => h v (List.mem_cons_of_mem _ hv))
      simp [serialize, packWord, hw, hrest]

/-- Emitting two bytes per word doubles the length. -/
theorem flatMap_pair_length : ∀ (ws : List Nat),
    (ws.flatMap fun w => [w / 0x100, w % 0x100]).length = 2 * ws.length
  | [] => rfl
  | w :: rest => by
      simp [List.flatMap_cons, flatMap_pair_length rest]
      omega

/-- C9: for a fully resolved word sequence whose words are representable in
16 bits, the serialized output is exactly the in-order concatenation of
each word packed as two bytes, most significant first (`w / 0x100` then
`w % 0x100`), with no header or length prefix; hence the output length is
exactly twice the number of words. -/
theorem c9_serializer (ws : List Nat) (h : ∀ w ∈ ws, w < 0x10000) :
    serialize ws = .ok (ws.flatMap fun w => [w / 0x100, w % 0x100]) ∧
    (∀ bs, serialize ws = .ok bs → bs.length = 2 * ws.length) := by
  have hmain := serialize_ok_of_lt ws h
  refine ⟨hmain, fun bs hbs => ?_⟩
  rw [hmain] at hbs
  cases hbs
  exact flatMap_pair_length ws

/-- Witness for C9 on the word list `[0x1234, 0x7]`. -/
theorem c9_serializer_witness :
    serialize [0x1234, 0x7] = .ok [0x12, 0x34, 0x00, 0x07] := by
  have h := (c9_serializer [0x1234, 0x7] (by decide)).1
  simpa using h

/-- C5: a `DAT` statement appends exactly the left-to-right expansion of its
literal list as raw resolved words (`PWord.num`, never a label
placeholder); a quoted string packs two character codes per word as
`(high << 8) | low` ("HI" gives the single word `0x4849`), an odd
character count zero-pads the final word's low byte, and a bare numeric
literal yields exactly one word. -/
theorem c5_dat_expansion :
    (∀ (st : CGState) (lab : Option String) (ds : List Datum),
        stepLine st ⟨lab, some (.dat ds)⟩ =
          .ok ⟨recordLabel st lab,
               st.program ++ (parse_data ds).map PWord.num, st.xVar⟩) ∧
    parse_data [.str "HI"] = [0x4849] ∧
    (∀ n : Nat, parse_data [.num n] = [n]) ∧
    (∀ ps : List (Nat × Nat),
        make_words (ps.flatMap fun p => [p.1, p.2]) =
          ps.map fun p => (p.1 <<< 8) ||| p.2) ∧
    (∀ (ps : List (Nat × Nat)) (c : Nat),
        make_words ((ps.flatMap fun p => [p.1, p.2]) ++ [c]) =
          (ps.map fun p => (p.1 <<< 8) ||| p.2) ++ [c <<< 8]) := by
  refine ⟨fun st lab ds => rfl, rfl, fun n => rfl, ?_, ?_⟩
  · intro ps
    induction ps with
    | nil => rfl
    | cons p rest ih =>
        show make_words (p.1 :: p.2 :: rest.flatMap fun q => [q.1, q.2]) =
          ((p.1 <<< 8) ||| p.2) :: rest.map fun q => (q.1 <<< 8) ||| q.2
        simp only [make_words]
        rw [ih]
  · intro ps c
    induction ps with
    | nil =>
        show make_words [c] = [c <<< 8]
        simp [make_words]
    | cons p rest ih =>
        show make_words (p.1 :: p.2 :: ((rest.flatMap fun q => [q.1, q.2]) ++ [c])) =
          ((p.1 <<< 8) ||| p.2) :: ((rest.map fun q => (q.1 <<< 8) ||| q.2) ++ [c <<< 8])
        simp only [make_words]
        rw [ih]

/-- C2: a two-operand line whose operands classify as `(a, x)` and `(b, y)`
emits the single word `(b << 10) | (a << 4) | o` followed by the extra
word `x` if present, then `y` if present, in that order; concretely,
`SET A, 0x30` assembles to exactly the words `0x7C01` then `0x0030`. -/
theorem c2_binop_encoding :
    (∀ (st : CGState) (lab : Option String) (m : Opcode) (f s : Operand)
        (a b : Nat) (x y : Option PWord),
        process_operand f = .ok (a, x) → process_operand s = .ok (b, y) →
        stepLine st ⟨lab, some (.binop m f s)⟩ =
          .ok ⟨recordLabel st lab,
               st.program ++ [.num ((b <<< 10) ||| (a <<< 4) ||| OPCODES m)]
                 ++ x.toList ++ y.toList,
               some x⟩) ∧
    resolvedProgram
      [⟨none, some (.binop .SET (.basic (.reg .A)) (.basic (.lit (.num 0x30))))⟩] =
      .ok [0x7C01, 0x0030] := by
  refine ⟨?_, rfl⟩
  intro st lab m f s a b x y hf hs
  have ha := process_operand_code_le f a x hf
  have ho : OPCODES m < 16 := by cases m <;> decide
  simp only [stepLine, stepStmt, hf, hs]
  rw [appendExtra_eq_toList, appendExtra_eq_toList,
      instrWord_eq_or b a (OPCODES m) ha ho]

/-- Witness for C2 on `SET A, 0x30` from the initial state. -/
theorem c2_binop_encoding_witness :
    stepLine initState
      ⟨none, some (.binop .SET (.basic (.reg .A)) (.basic (.lit (.num 0x30))))⟩ =
      .ok ⟨recordLabel initState none,
           initState.program ++ [.num ((0x1F <<< 10) ||| (0x00 <<< 4) ||| OPCODES .SET)]
             ++ Option.toList (none : Option PWord)
             ++ (some (PWord.num 0x30)).toList,
           some none⟩ :=
  c2_binop_encoding.1 initState none .SET (.basic (.reg .A))
    (.basic (.lit (.num 0x30))) 0x00 0x1F none (some (.num 0x30)) rfl rfl

/-- C7: an indirect register operand, and an indirect `[literal + register]`
operand, whose register is `PC` or `SP` makes the classifier fail with the
encoding assertion (and a line using such an operand aborts assembly rather
than encoding silently); for the 8 named registers the encodings are
`0x08 + index` and `0x10 | index` respectively. -/
theorem c7_indirect_register_restriction :
    (∀ r : Reg, (r = .PC ∨ r = .SP) →
        process_operand (.indirect (.reg r)) = .error .assertFail ∧
        (∀ l : Lit, process_operand (.indirectOffset l r) = .error .assertFail)) ∧
    (∀ r : Reg, ¬(r = .PC ∨ r = .SP) →
        process_operand (.indirect (.reg r)) = .ok (0x8 + IDENTIFIERS r, none) ∧
        (∀ l : Lit, process_operand (.indirectOffset l r) =
            .ok (0x10 ||| IDENTIFIERS r, some l.toPWord))) ∧
    (∀ (st : CGState) (lab : Option String) (m : Opcode) (f : Operand)
        (p : Nat × Option PWord),
        process_operand f = .ok p →
        stepLine st ⟨lab, some (.binop m f (.indirect (.reg .PC)))⟩ =
          .error .assertFail) := by
  refine ⟨?_, ?_, ?_⟩
  · rintro r (rfl | rfl) <;> exact ⟨rfl, fun l => rfl⟩
  · intro r hr
    have hn : r.inNamed = true := by
      cases r <;> simp_all [Reg.inNamed]
    exact ⟨by simp [process_operand, hn], fun l => by simp [process_operand, hn]⟩
  · intro st lab m f p hf
    obtain ⟨a, x⟩ := p
    have hpc : process_operand (.indirect (.reg .PC)) = .error .assertFail := rfl
    simp only [stepLine, stepStmt, hf, hpc]

/-- Witness for C7 at `[PC]`, `[A]`, `[0x10 + B]` and the line
`SET A, [PC]`. -/
theorem c7_indirect_register_restriction_witness :
    process_operand (.indirect (.reg .PC)) = .error .assertFail ∧
    process_operand (.indirect (.reg .A)) = .ok (0x8 + IDENTIFIERS .A, none) ∧
    process_operand (.indirectOffset (.num 0x10) .B) =
      .ok (0x10 ||| IDENTIFIERS .B, some (Lit.toPWord (.num 0x10))) ∧
    stepLine initState
      ⟨none, some (.binop .SET (.basic (.reg .A)) (.indirect (.reg .PC)))⟩ =
      .error .assertFail :=
  ⟨(c7_indirect_register_restriction.1 .PC (Or.inl rfl)).1,
   (c7_indirect_register_restriction.2.1 .A (by decide)).1,
   (c7_indirect_register_restriction.2.1 .B (by decide)).2 (.num 0x10),
   c7_indirect_register_restriction.2.2 initState none .SET (.basic (.reg .A))
     (0x00, none) rfl⟩

/-- Core resolution fact: when a line defining `lbl` is followed by no
further definition of `lbl`, the final table binds `lbl` to the program
length just before that line's statement, and every placeholder for `lbl`
anywhere in the generated program is substituted by that address. -/
theorem last_def_resolves
    (pre post : List Line) (lbl : String) (stmt : Option Stmt)
    (stPre stFin : CGState) (ws : List Nat)
    (hpre : stepLines initState pre = .ok stPre)
    (hfin : stepLines initState (pre ++ ⟨some lbl, stmt⟩ :: post) = .ok stFin)
    (hpost : ∀ ln ∈ post, ln.label ≠ some lbl)
    (hsub : substLabels stFin.labels stFin.program = .ok ws) :
    lookupLabel stFin.labels lbl = some stPre.program.length ∧
    ∀ j : Nat, stFin.program[j]? = some (.sym lbl) →
      ws[j]? = some stPre.program.length := by
  simp only [stepLines_append, hpre, stepLines] at hfin
  cases hmid : stepLine stPre ⟨some lbl, stmt⟩ with
  | error e => simp [hmid] at hfin
  | ok stMid =>
      simp only [hmid] at hfin
      have hlabels : stMid.labels = (lbl, stPre.program.length) :: stPre.labels :=
        stepLine_ok_labels stPre ⟨some lbl, stmt⟩ stMid hmid
      have hlook : lookupLabel stFin.labels lbl = some stPre.program.length := by
        rw [stepLines_lookup_preserved post stMid stFin lbl hfin hpost, hlabels]
        exact lookupLabel_setLabel_eq stPre.labels lbl stPre.program.length
      refine ⟨hlook, fun j hj => ?_⟩
      obtain ⟨n, hres, hn⟩ := substLabels_get stFin.labels stFin.program ws hsub j _ hj
      have hres2 : resolveWord stFin.labels (.sym lbl) = .ok stPre.program.length := by
        simp [resolveWord, hlook]
      rw [hres2] at hres
      injection hres with h2
      rw [← h2] at hn
      exact hn

/-- C4: a label definition on a line is bound to the length of the program
word sequence before that line's statement appends any words, and after
generation every symbolic program word referring to it is replaced by that
bound address — so forward and backward references to the same label
resolve to the same address (stated for the effective, i.e. last,
definition of the label, per the data model's uniqueness invariant). -/
theorem c4_label_resolution
    (pre post : List Line) (lbl : String) (stmt : Option Stmt)
    (stPre stFin : CGState) (ws : List Nat)
    (hpre : stepLines initState pre = .ok stPre)
    (hfin : stepLines initState (pre ++ ⟨some lbl, stmt⟩ :: post) = .ok stFin)
    (hpost : ∀ ln ∈ post, ln.label ≠ some lbl)
    (hsub : substLabels stFin.labels stFin.program = .ok ws) :
    lookupLabel stFin.labels lbl = some stPre.program.length ∧
    ∀ j : Nat, stFin.program[j]? = some (.sym lbl) →
      ws[j]? = some stPre.program.length :=
  last_def_resolves pre post lbl stmt stPre stFin ws hpre hfin hpost hsub

/-- Witness for C4: in `SET A, foo` / `:foo SET A, B` / `SET B, foo`, the
label is bound to word index 2, and both the forward reference (word 1,
emitted before the definition) and the backward reference (word 4) resolve
to 2. -/
theorem c4_label_resolution_witness :
    lookupLabel [("foo", 2)] "foo" = some 2 ∧
    ([0x7C01, 2, 0x401, 0x7C11, 2] : List Nat)[1]? = some 2 ∧
    ([0x7C01, 2, 0x401, 0x7C11, 2] : List Nat)[4]? = some 2 :=
  have h := c4_label_resolution
    [⟨none, some (.binop .SET (.basic (.reg .A)) (.basic (.lit (.sym "foo"))))⟩]
    [⟨none, some (.binop .SET (.basic (.reg .B)) (.basic (.lit (.sym "foo"))))⟩]
    "foo" (some (.binop .SET (.basic (.reg .A)) (.basic (.reg .B))))
    ⟨[], [.num 0x7C01, .sym "foo"], some none⟩
    ⟨[("foo", 2)], [.num 0x7C01, .sym "foo", .num 0x401, .num 0x7C11, .sym "foo"],
      some none⟩
    [0x7C01, 2, 0x401, 0x7C11, 2]
    rfl rfl (by decide) rfl
  ⟨h.1, h.2 1 rfl, h.2 4 rfl⟩

/-- C6: when the generated program contains a symbolic reference to a label
absent from the table, assembly fails at resolution time — after
generation, before serialization — with a key error, and yields no output
bytes. -/
theorem c6_undefined_label
    (lines : List Line) (tbl : Labels) (prog : List PWord) (s : String)
    (hgen : codegenWords lines = .ok (tbl, prog))
    (hmem : PWord.sym s ∈ prog)
    (hund : lookupLabel tbl s = none) :
    ∃ t, lookupLabel tbl t = none ∧
      resolvedProgram lines = .error (.keyErr t) ∧
      codegen lines = .error (.keyErr t) := by
  obtain ⟨t, ht, hsub⟩ := substLabels_error_of_mem tbl prog s hmem hund
  have hres : resolvedProgram lines = .error (.keyErr t) := by
    simp only [resolvedProgram, hgen]
    exact hsub
  exact ⟨t, ht, hres, by simp only [codegen, hres]⟩

/-- Witness for C6 on `SET A, foo` with no `:foo` anywhere: generation
succeeds but resolution and the whole assembly produce no result. -/
theorem c6_undefined_label_witness :
    (resolvedProgram
      [⟨none, some (.binop .SET (.basic (.reg .A)) (.basic (.lit (.sym "foo"))))⟩]).isOk
      = false ∧
    (codegen
      [⟨none, some (.binop .SET (.basic (.reg .A)) (.basic (.lit (.sym "foo"))))⟩]).isOk
      = false := by
  obtain ⟨t, ht, h1, h2⟩ := c6_undefined_label
    [⟨none, some (.binop .SET (.basic (.reg .A)) (.basic (.lit (.sym "foo"))))⟩]
    [] [.num 0x7C01, .sym "foo"] "foo" rfl (by decide) rfl
  rw [h1, h2]
  exact ⟨rfl, rfl⟩

/-- Recording a label never causes a line step to fail: the error behaviour
of a line is exactly that of its statement. -/
theorem stepLine_error_label_irrelevant (st : CGState) (lab : Option String)
    (s2 : Option Stmt) (e : AsmErr) :
    stepLine st ⟨lab, s2⟩ = .error e ↔ stepLine st ⟨none, s2⟩ = .error e := by
  unfold stepLine
  cases h : stepStmt st s2 <;> simp [h]

/-- C10: when the same label is defined on several lines, assembly still
succeeds (the redefinition itself can never cause a failure) and every
reference — before or after any of the definitions — resolves to the
address recorded at the textually last definition. -/
theorem c10_duplicate_label_last_wins
    (pre post : List Line) (lbl : String) (stmt : Option Stmt)
    (stPre stFin : CGState) (ws : List Nat)
    (_hdup : ∃ ln ∈ pre, ln.label = some lbl)
    (hpre : stepLines initState pre = .ok stPre)
    (hfin : stepLines initState (pre ++ ⟨some lbl, stmt⟩ :: post) = .ok stFin)
    (hpost : ∀ ln ∈ post, ln.label ≠ some lbl)
    (hsub : substLabels stFin.labels stFin.program = .ok ws) :
    lookupLabel stFin.labels lbl = some stPre.program.length ∧
    (∀ j : Nat, stFin.program[j]? = some (.sym lbl) →
        ws[j]? = some stPre.program.length) ∧
    (∀ (st : CGState) (lab : Option String) (s2 : Option Stmt) (e : AsmErr),
        stepLine st ⟨lab, s2⟩ = .error e ↔ stepLine st ⟨none, s2⟩ = .error e) := by
  obtain ⟨h1, h2⟩ :=
    last_def_resolves pre post lbl stmt stPre stFin ws hpre hfin hpost hsub
  exact ⟨h1, h2, stepLine_error_label_irrelevant⟩

/-- Witness for C10: `:foo SET A, foo` then `:foo SET B, C` — the
reference at word 1, emitted while `foo` was still bound to 0, resolves to
the second definition's address 2. -/
theorem c10_duplicate_label_last_wins_witness :
    lookupLabel [("foo", 2), ("foo", 0)] "foo" = some 2 ∧
    ([0x7C01, 2, 0x811] : List Nat)[1]? = some 2 :=
  have h := c10_duplicate_label_last_wins
    [⟨some "foo", some (.binop .SET (.basic (.reg .A)) (.basic (.lit (.sym "foo"))))⟩]
    [] "foo" (some (.binop .SET (.basic (.reg .B)) (.basic (.reg .C))))
    ⟨[("foo", 0)], [.num 0x7C01, .sym "foo"], some none⟩
    ⟨[("foo", 2), ("foo", 0)], [.num 0x7C01, .sym "foo", .num 0x811], some none⟩
    [0x7C01, 2, 0x811]
    ⟨⟨some "foo", some (.binop .SET (.basic (.reg .A)) (.basic (.lit (.sym "foo"))))⟩,
      List.mem_singleton_self _, rfl⟩
    rfl rfl (by simp) rfl
  ⟨h.1, h.2.1 1 rfl⟩
